import Mathlib

/- Verification of the reversible modular-arithmetic circuit builders of
quantum_modular_artihmetics.ipynb: sum_k, add_in_k_N, add_in_N, mult_out_k_N,
mult_in_k_N and Exp_a_N.

Two layers are used.  The syntactic layer renders each builder as the list of
gates it emits; rotation angles are recorded symbolically, `Gate.rz num den w`
standing for a rotation of wire w by angle num*pi/2^den, exactly the
`k * np.pi / (2**j)` of the source.  The semantic layer renders each builder
as its action on computational-basis states, using the standard reading of
the Fourier-basis blocks of the source: a QFT-conjugated block of sum_k
rotations adds its constant to the register value modulo 2^width, and leaving
the Fourier basis and reading the first wire reads the most-significant bit
of that value (registers are most-significant wire first). -/

/-- Reversible gates as emitted by the notebook.  `rz num den w` is
`qml.RZ(num * pi / 2**den, wires=w)`; `qft` and `qftInv` are `qml.QFT` and its
adjoint; `ctrl` is the wrapping performed by `qml.ctrl`. -/
inductive Gate : Type
  | rz (num : ℤ) (den : ℕ) (wire : ℕ)
  | qft (wires : List ℕ)
  | qftInv (wires : List ℕ)
  | cnot (c t : ℕ)
  | x (w : ℕ)
  | swap (a b : ℕ)
  | ctrl (controls : List ℕ) (g : Gate)
deriving DecidableEq

/-- Inverse of a single gate, as `qml.adjoint` computes it. -/
def Gate.invert : Gate → Gate
  | rz num den w => rz (-num) den w
  | qft ws => qftInv ws
  | qftInv ws => qft ws
  | cnot c t => cnot c t
  | x w => x w
  | swap a b => swap a b
  | ctrl cs g => ctrl cs g.invert

/-- Adjoint of a gate sequence: reverse the order and invert each gate
(`qml.adjoint` on a composite). -/
def adjoint_gates (gs : List Gate) : List Gate := (gs.map Gate.invert).reverse

/-- Control-wrapping of a gate sequence: every gate receives the same extra
controls, relative order preserved (`qml.ctrl` on a composite). -/
def ctrl_gates (cs : List ℕ) (gs : List Gate) : List Gate := gs.map (Gate.ctrl cs)

/-- Gates of `sum_k(k, wires)`: one rotation per wire, the wire of rank j from
the top rotated by angle k*pi/2^j. -/
def sum_k_gates (k : ℤ) (wires : List ℕ) : List Gate :=
  (List.range wires.length).map (fun j => Gate.rz k j (wires.getD j 0))

/-- Most-significant-bit test: for a width-n register holding a value v in
[0, 2^n), the first wire carries 1 exactly when 2^(n-1) <= v. -/
def msb (n : ℕ) (v : ℤ) : Bool := decide ((2 : ℤ) ^ (n - 1) ≤ v)

/-- Basis-state action of `add_in_k_N(k, N, wires_a, wires_aux)` on a register
of width n: value component taken modulo 2^n, auxiliary wire as the Bool
component.  Each step denotes one gate block of the source, in order:
sum_k k; adjoint sum_k N; leave the Fourier basis, CNOT the top wire into the
auxiliary wire, re-enter; sum_k N controlled on the auxiliary wire; adjoint
sum_k k; leave the Fourier basis, X-conjugated CNOT of the top wire into the
auxiliary wire, re-enter; sum_k k.  The optional outer QFT pair
(`is_in_standard_basis`) is the identity on this reading of states. -/
def add_in_k_N (k N : ℤ) (n : ℕ) (v : ℤ) (b : Bool) : ℤ × Bool :=
  let M : ℤ := 2 ^ n
  let v1 := (v + k) % M
  let v2 := (v1 - N) % M
  let b1 := xor b (msb n v2)
  let v3 := cond b1 ((v2 + N) % M) v2
  let v4 := (v3 - k) % M
  let b2 := xor b1 (!(msb n v4))
  let v5 := (v4 + k) % M
  (v5, b2)

theorem emod_eq_add_of_neg {x M : ℤ} (h0 : -M ≤ x) (h1 : x < 0) : x % M = x + M := by
  have h2 : (x + M * 1) % M = x % M := Int.add_mul_emod_self_left x M 1
  have h3 : (x + M * 1) % M = x + M * 1 := Int.emod_eq_of_lt (by omega) (by omega)
  omega

/-- C1.  For N ≥ 2, 0 ≤ k < N and a basis input 0 ≤ a < N on a register wide
enough for the call convention of the notebook (one spare top wire,
N ≤ 2^(n-1)), `add_in_k_N` maps a to (a+k) mod N and returns the overflow
auxiliary wire to 0. -/
theorem add_in_k_N_correct (n : ℕ) (N k a : ℤ) (hn : 1 ≤ n)
    (hN2 : 2 ≤ N) (hNw : N ≤ 2 ^ (n - 1))
    (hk0 : 0 ≤ k) (hkN : k < N) (ha0 : 0 ≤ a) (haN : a < N) :
    add_in_k_N k N n a false = ((a + k) % N, false) := by
  have hM : (2 : ℤ) ^ n = 2 ^ (n - 1) * 2 := by
    conv_lhs => rw [show n = (n - 1) + 1 by omega]
    rw [pow_succ]
  simp only [add_in_k_N, msb, hM]
  set h : ℤ := 2 ^ (n - 1) with hh
  have hhN : N ≤ h := hNw
  have e1 : (a + k) % (h * 2) = a + k := Int.emod_eq_of_lt (by omega) (by omega)
  rw [e1]
  by_cases hc : N ≤ a + k
  · -- no wrap-around is needed: a+k-N is already the result
    have e2 : (a + k - N) % (h * 2) = a + k - N :=
      Int.emod_eq_of_lt (by omega) (by omega)
    rw [e2]
    have m1 : ¬ (h ≤ a + k - N) := by omega
    rw [decide_eq_false m1]
    simp only [Bool.xor_false, Bool.false_xor, Bool.cond_false]
    have r1 : a + k - N - k = a - N := by ring
    rw [r1]
    have e3 : (a - N) % (h * 2) = a - N + h * 2 :=
      emod_eq_add_of_neg (by omega) (by omega)
    rw [e3]
    have m2 : h ≤ a - N + h * 2 := by omega
    rw [decide_eq_true m2]
    simp only [Bool.not_true, Bool.xor_false]
    have e4 : (a - N + h * 2 + k) % (h * 2) = a + k - N := by
      have r2 : a - N + h * 2 + k = (a + k - N) + (h * 2) * 1 := by ring
      rw [r2, Int.add_mul_emod_self_left, e2]
    rw [e4]
    have e5 : (a + k) % N = a + k - N := by
      have r3 : a + k = (a + k - N) + N * 1 := by ring
      have h0 : (0 : ℤ) ≤ a + k - N := by omega
      have h1 : a + k - N < N := by omega
      conv_lhs => rw [r3]
      rw [Int.add_mul_emod_self_left]
      exact Int.emod_eq_of_lt h0 h1
    rw [e5]
  · -- wrap-around case: the auxiliary wire is set and N is re-added
    have e2 : (a + k - N) % (h * 2) = a + k - N + h * 2 :=
      emod_eq_add_of_neg (by omega) (by omega)
    rw [e2]
    have m1 : h ≤ a + k - N + h * 2 := by omega
    rw [decide_eq_true m1]
    simp only [Bool.xor_false, Bool.false_xor, Bool.cond_true]
    have e3 : (a + k - N + h * 2 + N) % (h * 2) = a + k := by
      have r1 : a + k - N + h * 2 + N = (a + k) + (h * 2) * 1 := by ring
      rw [r1, Int.add_mul_emod_self_left, e1]
    rw [e3]
    have r2 : a + k - k = a := by ring
    rw [r2]
    have e4 : a % (h * 2) = a := Int.emod_eq_of_lt (by omega) (by omega)
    rw [e4]
    have m2 : ¬ (h ≤ a) := by omega
    rw [decide_eq_false m2]
    simp only [Bool.not_false, Bool.true_xor, Bool.not_true]
    have h0 : (0 : ℤ) ≤ a + k := by omega
    have h1 : a + k < N := by omega
    have e5 : (a + k) % N = a + k := Int.emod_eq_of_lt h0 h1
    rw [e5, e1]

/-- Basis-state action of the adjoint of `add_in_k_N` (as produced by
`qml.adjoint`): the gate blocks of `add_in_k_N` inverted and replayed in
reverse order.  Steps, in order: adjoint sum_k k; the X-conjugated CNOT block;
sum_k k; adjoint sum_k N controlled on the auxiliary wire; the CNOT block;
sum_k N; adjoint sum_k k. -/
def adj_add_in_k_N (k N : ℤ) (n : ℕ) (v : ℤ) (b : Bool) : ℤ × Bool :=
  let M : ℤ := 2 ^ n
  let v1 := (v - k) % M
  let b1 := xor b (!(msb n v1))
  let v2 := (v1 + k) % M
  let v3 := cond b1 ((v2 - N) % M) v2
  let b2 := xor b1 (msb n v3)
  let v4 := (v3 + N) % M
  let v5 := (v4 - k) % M
  (v5, b2)

theorem adj_add_in_k_N_correct (n : ℕ) (N k y : ℤ) (hn : 1 ≤ n)
    (hN2 : 2 ≤ N) (hNw : N ≤ 2 ^ (n - 1))
    (hk0 : 0 ≤ k) (hkN : k < N) (hy0 : 0 ≤ y) (hyN : y < N) :
    adj_add_in_k_N k N n y false = ((y - k) % N, false) := by
  have hM : (2 : ℤ) ^ n = 2 ^ (n - 1) * 2 := by
    conv_lhs => rw [show n = (n - 1) + 1 by omega]
    rw [pow_succ]
  simp only [adj_add_in_k_N, msb, hM]
  set h : ℤ := 2 ^ (n - 1) with hh
  have hhN : N ≤ h := hNw
  by_cases hc : k ≤ y
  · have e1 : (y - k) % (h * 2) = y - k := Int.emod_eq_of_lt (by omega) (by omega)
    rw [e1]
    have m1 : ¬ (h ≤ y - k) := by omega
    rw [decide_eq_false m1]
    simp only [Bool.not_false, Bool.xor_false, Bool.false_xor, Bool.cond_true]
    have r1 : y - k + k = y := by ring
    rw [r1]
    have e2 : y % (h * 2) = y := Int.emod_eq_of_lt (by omega) (by omega)
    rw [e2]
    have e3 : (y - N) % (h * 2) = y - N + h * 2 :=
      emod_eq_add_of_neg (by omega) (by omega)
    rw [e3]
    have m2 : h ≤ y - N + h * 2 := by omega
    rw [decide_eq_true m2]
    simp only [Bool.true_xor, Bool.not_true]
    have e4 : (y - N + h * 2 + N) % (h * 2) = y := by
      have r2 : y - N + h * 2 + N = y + (h * 2) * 1 := by ring
      rw [r2, Int.add_mul_emod_self_left, e2]
    rw [e4, e1]
    have e5 : (y - k) % N = y - k := Int.emod_eq_of_lt (by omega) (by omega)
    rw [e5]
  · have e1 : (y - k) % (h * 2) = y - k + h * 2 :=
      emod_eq_add_of_neg (by omega) (by omega)
    rw [e1]
    have m1 : h ≤ y - k + h * 2 := by omega
    rw [decide_eq_true m1]
    simp only [Bool.not_true, Bool.xor_false, Bool.cond_false]
    have e2 : (y - k + h * 2 + k) % (h * 2) = y := by
      have r1 : y - k + h * 2 + k = y + (h * 2) * 1 := by ring
      rw [r1, Int.add_mul_emod_self_left]
      exact Int.emod_eq_of_lt (by omega) (by omega)
    rw [e2]
    have m2 : ¬ (h ≤ y) := by omega
    rw [decide_eq_false m2]
    simp only [Bool.xor_false, Bool.false_xor]
    have e3 : (y + N) % (h * 2) = y + N := Int.emod_eq_of_lt (by omega) (by omega)
    rw [e3]
    have e4 : (y + N - k) % (h * 2) = y + N - k :=
      Int.emod_eq_of_lt (by omega) (by omega)
    rw [e4]
    have e5 : (y - k) % N = y + N - k := by
      have r2 : y - k = (y + N - k) + N * (-1) := by ring
      conv_lhs => rw [r2]
      rw [Int.add_mul_emod_self_left]
      exact Int.emod_eq_of_lt (by omega) (by omega)
    rw [e5]

/-- Controlled-addition loop shared by `add_in_N` and `mult_out_k_N`: the
source iterates i = 0 .. len(wires_a)-1 and applies `add_in_k_N` with the
weight of bit j = len-1-i, controlled on wire i of wires_a, which carries bit
j of the control value.  The recursion below performs the same applications
in the same order, j descending from na-1 to 0. -/
def ctrl_add_loop (w : ℕ → ℤ) (N : ℤ) (nb1 : ℕ) (a : ℕ) : ℕ → ℤ × Bool → ℤ × Bool
  | 0, s => s
  | j + 1, s => ctrl_add_loop w N nb1 a j
      (cond (a.testBit j) (add_in_k_N (w j) N nb1 s.1 s.2) s)

/-- Basis-state action of `add_in_N(N, wires_a, wires_b, aux1, aux2)` on the
extended register aux1 ++ wires_b of width nb1: for each wire i of the
width-na control register, a controlled `add_in_k_N` with constant
2^(na-1-i) % N, in a QFT/adjoint-QFT sandwich.  The control register a is
only read, never written. -/
def add_in_N (N : ℤ) (na nb1 : ℕ) (a : ℕ) (s : ℤ × Bool) : ℤ × Bool :=
  ctrl_add_loop (fun j => (2 : ℤ) ^ j % N) N nb1 a na s

/-- Basis-state action of `mult_out_k_N(k, N, wires_a, wires_b, wires_aux)` on
the extended register wires_aux[0] :: wires_b of width nb1: same loop with
scaled weights (k * 2^(na-1-i)) % N. -/
def mult_out_k_N (k N : ℤ) (na nb1 : ℕ) (a : ℕ) (s : ℤ × Bool) : ℤ × Bool :=
  ctrl_add_loop (fun j => (k * 2 ^ j) % N) N nb1 a na s

/-- Basis-state action of the adjoint of `add_in_N`: the controlled blocks are
replayed in reverse order (bit weight ascending), each replaced by the adjoint
of `add_in_k_N`. -/
def adj_ctrl_add_loop (w : ℕ → ℤ) (N : ℤ) (nb1 : ℕ) (a : ℕ) : ℕ → ℤ × Bool → ℤ × Bool
  | 0, s => s
  | j + 1, s =>
      let t := adj_ctrl_add_loop w N nb1 a j s
      cond (a.testBit j) (adj_add_in_k_N (w j) N nb1 t.1 t.2) t

/-- Basis-state action of `qml.adjoint(add_in_N)`. -/
def adj_add_in_N (N : ℤ) (na nb1 : ℕ) (a : ℕ) (s : ℤ × Bool) : ℤ × Bool :=
  adj_ctrl_add_loop (fun j => (2 : ℤ) ^ j % N) N nb1 a na s

theorem nat_mod_two_pow_succ (a m : ℕ) :
    a % 2 ^ (m + 1) = a % 2 ^ m + 2 ^ m * (if a.testBit m then 1 else 0) := by
  have h1 : a % (2 ^ m * 2) = a % 2 ^ m + 2 ^ m * (a / 2 ^ m % 2) := Nat.mod_mul
  have h2 : (2 : ℕ) ^ (m + 1) = 2 ^ m * 2 := pow_succ 2 m
  rcases Nat.mod_two_eq_zero_or_one (a / 2 ^ m) with h | h
  · have hb : a.testBit m = false := by simp [Nat.testBit_to_div_mod, h]
    rw [h2, h1, h, hb]
    simp
  · have hb : a.testBit m = true := by simp [Nat.testBit_to_div_mod, h]
    rw [h2, h1, h, hb]
    simp

theorem emod_modeq_self (a n : ℤ) : a % n ≡ a [ZMOD n] :=
  Int.emod_emod_of_dvd a dvd_rfl

theorem ctrl_add_loop_correct (w : ℕ → ℤ) (c N : ℤ) (nb1 : ℕ) (a : ℕ)
    (hn : 1 ≤ nb1) (hN2 : 2 ≤ N) (hNw : N ≤ 2 ^ (nb1 - 1)) :
    ∀ na, (∀ j, j < na → 0 ≤ w j ∧ w j < N ∧ w j % N = c * 2 ^ j % N) →
    ∀ b : ℤ, 0 ≤ b → b < N →
    ctrl_add_loop w N nb1 a na (b, false) =
      ((b + c * ((a % 2 ^ na : ℕ) : ℤ)) % N, false) := by
  intro na
  induction na with
  | zero =>
    intro _ b hb0 hbN
    simp only [ctrl_add_loop, pow_zero, Nat.mod_one, Nat.cast_zero, mul_zero,
      add_zero]
    rw [Int.emod_eq_of_lt hb0 hbN]
  | succ m ih =>
    intro hw b hb0 hbN
    obtain ⟨hw0, hw1, hwc⟩ := hw m (Nat.lt_succ_self m)
    simp only [ctrl_add_loop]
    by_cases hbit : a.testBit m
    · rw [hbit, Bool.cond_true,
        add_in_k_N_correct nb1 N (w m) b hn hN2 hNw hw0 hw1 hb0 hbN]
      have hb10 : 0 ≤ (b + w m) % N := Int.emod_nonneg _ (by omega)
      have hb1N : (b + w m) % N < N := Int.emod_lt_of_pos _ (by omega)
      rw [ih (fun j hj => hw j (by omega)) ((b + w m) % N) hb10 hb1N]
      have hm : ((a % 2 ^ (m + 1) : ℕ) : ℤ) = ((a % 2 ^ m : ℕ) : ℤ) + 2 ^ m := by
        rw [nat_mod_two_pow_succ, hbit]
        push_cast
        simp
      rw [hm]
      have h1 : (b + w m) % N ≡ b + w m [ZMOD N] := emod_modeq_self _ _
      have h2 : b + w m ≡ b + c * 2 ^ m [ZMOD N] := (Int.ModEq.refl b).add hwc
      have h3 := (h1.trans h2).add_right (c * ((a % 2 ^ m : ℕ) : ℤ))
      have h4 : b + c * 2 ^ m + c * ((a % 2 ^ m : ℕ) : ℤ) =
          b + c * (((a % 2 ^ m : ℕ) : ℤ) + 2 ^ m) := by ring
      rw [h4] at h3
      have h5 : ((b + w m) % N + c * ((a % 2 ^ m : ℕ) : ℤ)) % N =
          (b + c * (((a % 2 ^ m : ℕ) : ℤ) + 2 ^ m)) % N := h3
      rw [h5]
    · have hb' : a.testBit m = false := by
        simpa using hbit
      rw [hb', Bool.cond_false]
      rw [ih (fun j hj => hw j (by omega)) b hb0 hbN]
      have hm : ((a % 2 ^ (m + 1) : ℕ) : ℤ) = ((a % 2 ^ m : ℕ) : ℤ) := by
        rw [nat_mod_two_pow_succ, hb']
        push_cast
        ring
      rw [hm]

theorem adj_ctrl_add_loop_correct (w : ℕ → ℤ) (c N : ℤ) (nb1 : ℕ) (a : ℕ)
    (hn : 1 ≤ nb1) (hN2 : 2 ≤ N) (hNw : N ≤ 2 ^ (nb1 - 1)) :
    ∀ na, (∀ j, j < na → 0 ≤ w j ∧ w j < N ∧ w j % N = c * 2 ^ j % N) →
    ∀ b : ℤ, 0 ≤ b → b < N →
    adj_ctrl_add_loop w N nb1 a na (b, false) =
      ((b - c * ((a % 2 ^ na : ℕ) : ℤ)) % N, false) := by
  intro na
  induction na with
  | zero =>
    intro _ b hb0 hbN
    simp only [adj_ctrl_add_loop, pow_zero, Nat.mod_one, Nat.cast_zero,
      mul_zero, sub_zero]
    rw [Int.emod_eq_of_lt hb0 hbN]
  | succ m ih =>
    intro hw b hb0 hbN
    obtain ⟨hw0, hw1, hwc⟩ := hw m (Nat.lt_succ_self m)
    simp only [adj_ctrl_add_loop]
    rw [ih (fun j hj => hw j (by omega)) b hb0 hbN]
    have ht0 : 0 ≤ (b - c * ((a % 2 ^ m : ℕ) : ℤ)) % N := Int.emod_nonneg _ (by omega)
    have htN : (b - c * ((a % 2 ^ m : ℕ) : ℤ)) % N < N := Int.emod_lt_of_pos _ (by omega)
    by_cases hbit : a.testBit m
    · rw [hbit, Bool.cond_true,
        adj_add_in_k_N_correct nb1 N (w m) _ hn hN2 hNw hw0 hw1 ht0 htN]
      have hm : ((a % 2 ^ (m + 1) : ℕ) : ℤ) = ((a % 2 ^ m : ℕ) : ℤ) + 2 ^ m := by
        rw [nat_mod_two_pow_succ, hbit]
        push_cast
        simp
      rw [hm]
      have h1 : (b - c * ((a % 2 ^ m : ℕ) : ℤ)) % N ≡
          b - c * ((a % 2 ^ m : ℕ) : ℤ) [ZMOD N] := emod_modeq_self _ _
      have h2 := (h1.sub (hwc : w m ≡ c * 2 ^ m [ZMOD N]))
      have h3 : b - c * ((a % 2 ^ m : ℕ) : ℤ) - c * 2 ^ m =
          b - c * (((a % 2 ^ m : ℕ) : ℤ) + 2 ^ m) := by ring
      rw [h3] at h2
      have h4 : ((b - c * ((a % 2 ^ m : ℕ) : ℤ)) % N - w m) % N =
          (b - c * (((a % 2 ^ m : ℕ) : ℤ) + 2 ^ m)) % N := h2
      rw [h4]
    · have hb' : a.testBit m = false := by
        simpa using hbit
      rw [hb', Bool.cond_false]
      have hm : ((a % 2 ^ (m + 1) : ℕ) : ℤ) = ((a % 2 ^ m : ℕ) : ℤ) := by
        rw [nat_mod_two_pow_succ, hb']
        push_cast
        ring
      rw [hm]

theorem add_in_N_correct (N : ℤ) (na nb1 : ℕ) (a : ℕ) (b : ℤ)
    (hn : 1 ≤ nb1) (hN2 : 2 ≤ N) (hNw : N ≤ 2 ^ (nb1 - 1))
    (ha : a < 2 ^ na) (hb0 : 0 ≤ b) (hbN : b < N) :
    add_in_N N na nb1 a (b, false) = (((a : ℤ) + b) % N, false) := by
  unfold add_in_N
  rw [ctrl_add_loop_correct (fun j => (2 : ℤ) ^ j % N) 1 N nb1 a hn hN2 hNw na
    (fun j hj => ⟨Int.emod_nonneg _ (by omega), Int.emod_lt_of_pos _ (by omega),
      by rw [one_mul]; exact emod_modeq_self _ _⟩) b hb0 hbN]
  rw [Nat.mod_eq_of_lt ha]
  have r : b + 1 * (a : ℤ) = (a : ℤ) + b := by ring
  rw [r]

theorem mult_out_k_N_correct (k N : ℤ) (na nb1 : ℕ) (a : ℕ) (b : ℤ)
    (hn : 1 ≤ nb1) (hN2 : 2 ≤ N) (hNw : N ≤ 2 ^ (nb1 - 1))
    (ha : a < 2 ^ na) (hb0 : 0 ≤ b) (hbN : b < N) :
    mult_out_k_N k N na nb1 a (b, false) = ((b + k * (a : ℤ)) % N, false) := by
  unfold mult_out_k_N
  rw [ctrl_add_loop_correct (fun j => k * 2 ^ j % N) k N nb1 a hn hN2 hNw na
    (fun j hj => ⟨Int.emod_nonneg _ (by omega), Int.emod_lt_of_pos _ (by omega),
      emod_modeq_self _ _⟩) b hb0 hbN]
  rw [Nat.mod_eq_of_lt ha]

/-- C3.  `add_in_N` maps basis state (a, b) to (a, (a+b) mod N) — the control
register a is read only — and its adjoint maps (a, (a+b) mod N) back to
(a, b), for N ≥ 2, 0 ≤ a,b < N, a representable in the control register and
the extended target register holding one spare top wire (N ≤ 2^(nb1-1)). -/
theorem add_in_N_roundtrip (N : ℤ) (na nb1 : ℕ) (a : ℕ) (b : ℤ)
    (hn : 1 ≤ nb1) (hN2 : 2 ≤ N) (hNw : N ≤ 2 ^ (nb1 - 1))
    (haN : (a : ℤ) < N) (ha2 : a < 2 ^ na) (hb0 : 0 ≤ b) (hbN : b < N) :
    add_in_N N na nb1 a (b, false) = (((a : ℤ) + b) % N, false) ∧
    adj_add_in_N N na nb1 a ((((a : ℤ) + b) % N), false) = (b, false) := by
  constructor
  · exact add_in_N_correct N na nb1 a b hn hN2 hNw ha2 hb0 hbN
  · unfold adj_add_in_N
    have hs0 : 0 ≤ ((a : ℤ) + b) % N := Int.emod_nonneg _ (by omega)
    have hsN : ((a : ℤ) + b) % N < N := Int.emod_lt_of_pos _ (by omega)
    rw [adj_ctrl_add_loop_correct (fun j => (2 : ℤ) ^ j % N) 1 N nb1 a hn hN2 hNw na
      (fun j hj => ⟨Int.emod_nonneg _ (by omega), Int.emod_lt_of_pos _ (by omega),
        by rw [one_mul]; exact emod_modeq_self _ _⟩) _ hs0 hsN]
    rw [Nat.mod_eq_of_lt ha2]
    have h1 : ((a : ℤ) + b) % N ≡ (a : ℤ) + b [ZMOD N] := emod_modeq_self _ _
    have h2 := h1.sub_right (1 * (a : ℤ))
    have r : (a : ℤ) + b - 1 * (a : ℤ) = b := by ring
    rw [r] at h2
    have h3 : (((a : ℤ) + b) % N - 1 * (a : ℤ)) % N = b % N := h2
    rw [h3, Int.emod_eq_of_lt hb0 hbN]

/-- Basis-state action of `mult_in_k_N(k, N, wires_a, wires_support,
wires_aux)` on the state (a value, support value, auxiliary wire).  As in the
source: if fewer than two auxiliary wires are supplied or the register widths
differ, or if `pow(k, N-2, N) * k % N != 1`, the function returns before any
gate is emitted, so the state is unchanged; otherwise it chains
`mult_out_k_N k`, a bitwise swap of the two registers (a value swap for
representable states), and a forward `mult_out_k_N` with constant
N - pow(k, N-2, N). -/
def mult_in_k_N (k N : ℤ) (na nsup naux : ℕ) (s : ℤ × ℤ × Bool) : ℤ × ℤ × Bool :=
  if naux < 2 ∨ na ≠ nsup then s
  else if (k ^ (N - 2).toNat % N * k) % N ≠ 1 then s
  else
    let p1 := mult_out_k_N k N na (nsup + 1) s.1.toNat (s.2.1, s.2.2)
    let p2 := mult_out_k_N (N - k ^ (N - 2).toNat % N) N na (nsup + 1)
      p1.1.toNat (s.1, p1.2)
    (p1.1, p2.1, p2.2)

theorem modeq_pow_of_guard (N k : ℤ) (hN2 : 2 ≤ N)
    (hinv : (k ^ (N - 2).toNat % N * k) % N = 1) :
    k ^ ((N - 2).toNat + 1) ≡ 1 [ZMOD N] := by
  have h1 : k ^ ((N - 2).toNat + 1) ≡ k ^ (N - 2).toNat % N * k [ZMOD N] := by
    rw [pow_succ]
    exact ((emod_modeq_self (k ^ (N - 2).toNat) N).mul_right k).symm
  have h2 : k ^ (N - 2).toNat % N * k ≡ 1 [ZMOD N] := by
    show _ % N = 1 % N
    rw [hinv, Int.emod_eq_of_lt (by omega : (0 : ℤ) ≤ 1) (by omega)]
  exact h1.trans h2

theorem guard_of_modeq_pow (N c : ℤ) (hN2 : 2 ≤ N)
    (h : c ^ ((N - 2).toNat + 1) ≡ 1 [ZMOD N]) :
    (c ^ (N - 2).toNat % N * c) % N = 1 := by
  have h1 : c ^ (N - 2).toNat % N * c ≡ c ^ ((N - 2).toNat + 1) [ZMOD N] := by
    rw [pow_succ]
    exact (emod_modeq_self (c ^ (N - 2).toNat) N).mul_right c
  have h3 : (c ^ (N - 2).toNat % N * c) % N = 1 % N := h1.trans h
  rw [h3]
  exact Int.emod_eq_of_lt (by omega) (by omega)

theorem mult_in_k_N_maps (k N : ℤ) (n naux : ℕ) (a : ℤ)
    (hN2 : 2 ≤ N) (ha0 : 0 ≤ a) (haN : a < N)
    (hw : N ≤ 2 ^ n) (haux : 2 ≤ naux)
    (hinv : (k ^ (N - 2).toNat % N * k) % N = 1) :
    mult_in_k_N k N n n naux (a, 0, false) = ((k * a) % N, 0, false) := by
  have hg1 : ¬ (naux < 2 ∨ n ≠ n) := by omega
  have hg2 : ¬ ((k ^ (N - 2).toNat % N * k) % N ≠ 1) := by omega
  rw [mult_in_k_N, if_neg hg1, if_neg hg2]
  have hcast : ((2 : ℕ) ^ n : ℤ) = (2 : ℤ) ^ n := by push_cast; ring
  have hwn : N ≤ 2 ^ ((n + 1) - 1) := by
    simpa using hw
  have hat : a.toNat < 2 ^ n := by
    have h1 : (a.toNat : ℤ) = a := Int.toNat_of_nonneg ha0
    have h2 : (a.toNat : ℤ) < ((2 : ℕ) ^ n : ℤ) := by rw [h1, hcast]; omega
    exact_mod_cast h2
  have hp1 := mult_out_k_N_correct k N n (n + 1) a.toNat 0
    (by omega) hN2 hwn hat le_rfl (by omega)
  rw [Int.toNat_of_nonneg ha0] at hp1
  simp only [hp1, zero_add]
  set m : ℤ := (k * a) % N with hm
  have hm0 : 0 ≤ m := Int.emod_nonneg _ (by omega)
  have hmN : m < N := Int.emod_lt_of_pos _ (by omega)
  have hmt : m.toNat < 2 ^ n := by
    have h1 : (m.toNat : ℤ) = m := Int.toNat_of_nonneg hm0
    have h2 : (m.toNat : ℤ) < ((2 : ℕ) ^ n : ℤ) := by rw [h1, hcast]; omega
    exact_mod_cast h2
  have hp2 := mult_out_k_N_correct (N - k ^ (N - 2).toNat % N) N n (n + 1)
    m.toNat a (by omega) hN2 hwn hmt ha0 haN
  rw [Int.toNat_of_nonneg hm0] at hp2
  simp only [hp2]
  have hik : k ^ (N - 2).toNat % N * k ≡ 1 [ZMOD N] := by
    show _ % N = 1 % N
    rw [hinv, Int.emod_eq_of_lt (by omega : (0 : ℤ) ≤ 1) (by omega)]
  have key : a + (N - k ^ (N - 2).toNat % N) * m ≡ 0 [ZMOD N] := by
    have s1 : a + (N - k ^ (N - 2).toNat % N) * m ≡
        a + (N - k ^ (N - 2).toNat % N) * (k * a) [ZMOD N] :=
      (Int.ModEq.refl a).add ((Int.ModEq.refl _).mul (emod_modeq_self _ _))
    have s2 : a + (N - k ^ (N - 2).toNat % N) * (k * a) =
        a + N * (k * a) - (k ^ (N - 2).toNat % N * k) * a := by ring
    have s3 : a + N * (k * a) - (k ^ (N - 2).toNat % N * k) * a ≡
        a + N * (k * a) - 1 * a [ZMOD N] :=
      (Int.ModEq.refl _).sub (hik.mul_right a)
    have s4 : a + N * (k * a) - 1 * a = N * (k * a) := by ring
    have s5 : N * (k * a) ≡ 0 [ZMOD N] := by
      show N * (k * a) % N = 0 % N
      rw [Int.mul_emod_right, Int.zero_emod]
    calc a + (N - k ^ (N - 2).toNat % N) * m
        ≡ a + (N - k ^ (N - 2).toNat % N) * (k * a) [ZMOD N] := s1
      _ = a + N * (k * a) - (k ^ (N - 2).toNat % N * k) * a := s2
      _ ≡ a + N * (k * a) - 1 * a [ZMOD N] := s3
      _ = N * (k * a) := s4
      _ ≡ 0 [ZMOD N] := s5
  have hz : (a + (N - k ^ (N - 2).toNat % N) * m) % N = 0 := by
    have h6 : (a + (N - k ^ (N - 2).toNat % N) * m) % N = 0 % N := key
    rw [h6, Int.zero_emod]
  rw [hz]

/-- C4 (amended).  When the inverse check of the source passes —
`pow(k, N-2, N) * k % N == 1`, i.e. k^(N-1) ≡ 1 (mod N), which the code tests
instead of gcd(k, N) = 1 — `mult_in_k_N` maps basis state a (0 ≤ a < N) to
(k·a) mod N in place, the support register and both auxiliary wires return to
0, and applying `mult_in_k_N` with the inverse the code computes,
k^(N-2) mod N, restores a. -/
theorem mult_in_k_N_correct (k N : ℤ) (n naux : ℕ) (a : ℤ)
    (hN2 : 2 ≤ N) (ha0 : 0 ≤ a) (haN : a < N) (hk0 : 0 ≤ k) (hkN : k < N)
    (hw : N ≤ 2 ^ n) (haux : 2 ≤ naux)
    (hinv : (k ^ (N - 2).toNat % N * k) % N = 1) :
    mult_in_k_N k N n n naux (a, 0, false) = ((k * a) % N, 0, false) ∧
    mult_in_k_N (k ^ (N - 2).toNat % N) N n n naux ((k * a) % N, 0, false) =
      (a, 0, false) := by
  have hm0 : 0 ≤ (k * a) % N := Int.emod_nonneg _ (by omega)
  have hmN : (k * a) % N < N := Int.emod_lt_of_pos _ (by omega)
  have h1 : k ^ ((N - 2).toNat + 1) ≡ 1 [ZMOD N] := modeq_pow_of_guard N k hN2 hinv
  have hinv2 : ((k ^ (N - 2).toNat % N) ^ (N - 2).toNat % N *
      (k ^ (N - 2).toNat % N)) % N = 1 := by
    apply guard_of_modeq_pow N _ hN2
    have h2 : k ^ (N - 2).toNat % N ≡ k ^ (N - 2).toNat [ZMOD N] :=
      emod_modeq_self _ _
    have h3 := h2.pow ((N - 2).toNat + 1)
    have h4 : (k ^ (N - 2).toNat) ^ ((N - 2).toNat + 1) =
        (k ^ ((N - 2).toNat + 1)) ^ (N - 2).toNat := by
      rw [← pow_mul, ← pow_mul, mul_comm]
    have h5 := h1.pow ((N - 2).toNat)
    rw [one_pow] at h5
    rw [h4] at h3
    exact h3.trans h5
  constructor
  · exact mult_in_k_N_maps k N n naux a hN2 ha0 haN hw haux hinv
  · have hmain := mult_in_k_N_maps (k ^ (N - 2).toNat % N) N n naux
      ((k * a) % N) hN2 hm0 hmN hw haux hinv2
    rw [hmain]
    have hik : k ^ (N - 2).toNat % N * k ≡ 1 [ZMOD N] := by
      show _ % N = 1 % N
      rw [hinv, Int.emod_eq_of_lt (by omega : (0 : ℤ) ≤ 1) (by omega)]
    have s1 : k ^ (N - 2).toNat % N * ((k * a) % N) ≡
        (k ^ (N - 2).toNat % N * k) * a [ZMOD N] := by
      have := (Int.ModEq.refl (k ^ (N - 2).toNat % N)).mul
        (emod_modeq_self (k * a) N)
      calc k ^ (N - 2).toNat % N * ((k * a) % N)
          ≡ k ^ (N - 2).toNat % N * (k * a) [ZMOD N] := this
        _ = (k ^ (N - 2).toNat % N * k) * a := by ring
    have s2 : (k ^ (N - 2).toNat % N * k) * a ≡ 1 * a [ZMOD N] :=
      hik.mul_right a
    have s3 : k ^ (N - 2).toNat % N * ((k * a) % N) ≡ a [ZMOD N] := by
      have := s1.trans s2
      rwa [one_mul] at this
    have s4 : (k ^ (N - 2).toNat % N * ((k * a) % N)) % N = a % N := s3
    rw [s4, Int.emod_eq_of_lt ha0 haN]

/-- Basis-state action of the PauliX on the least-significant wire of a
register: its bottom bit is flipped. -/
def lsb_flip (v : ℤ) : ℤ := cond (v.toNat.testBit 0) (v - 1) (v + 1)

/-- Loop of `Exp_a_N`: for exponent wire i = 0 .. len(wires_x)-1, a
`mult_in_k_N` with the unreduced classical constant a^(2^(n-i-1)), controlled
on wire i of wires_x, i.e. on bit j = n-i-1 of x.  The recursion processes
the same constants in the same order, j descending. -/
def exp_loop (a N : ℤ) (nres nsup naux : ℕ) (x : ℕ) : ℕ → ℤ × ℤ × Bool → ℤ × ℤ × Bool
  | 0, s => s
  | j + 1, s => exp_loop a N nres nsup naux x j
      (cond (x.testBit j) (mult_in_k_N (a ^ 2 ^ j) N nres nsup naux s) s)

/-- Basis-state action of `Exp_a_N(a, N, wires_x, wires_res, wires_support,
wires_aux)` on the state (result value, support value, auxiliary wire): the
result register has its least-significant wire flipped (setting it to basis
state 1 when it starts at 0), then one controlled `mult_in_k_N` per exponent
wire. -/
def Exp_a_N (a N : ℤ) (nres nsup naux nx : ℕ) (x : ℕ) (s : ℤ × ℤ × Bool) :
    ℤ × ℤ × Bool :=
  exp_loop a N nres nsup naux x nx (lsb_flip s.1, s.2.1, s.2.2)

theorem exp_loop_correct (a N : ℤ) (n naux : ℕ) (x : ℕ)
    (hN2 : 2 ≤ N) (ha0 : 0 ≤ a) (hw : N ≤ 2 ^ n) (haux : 2 ≤ naux)
    (hferm : a ^ (N - 1).toNat % N = 1) :
    ∀ m, ∀ r : ℤ, 0 ≤ r → r < N →
    exp_loop a N n n naux x m (r, 0, false) =
      ((r * a ^ (x % 2 ^ m)) % N, 0, false) := by
  have hfe : a ^ (N - 1).toNat ≡ 1 [ZMOD N] := by
    show _ % N = 1 % N
    rw [hferm, Int.emod_eq_of_lt (by omega : (0 : ℤ) ≤ 1) (by omega)]
  have he1 : (N - 2).toNat + 1 = (N - 1).toNat := by omega
  intro m
  induction m with
  | zero =>
    intro r hr0 hrN
    simp only [exp_loop, pow_zero, Nat.mod_one, mul_one]
    rw [Int.emod_eq_of_lt hr0 hrN]
  | succ m ih =>
    intro r hr0 hrN
    simp only [exp_loop]
    by_cases hbit : x.testBit m
    · have hguard : ((a ^ 2 ^ m) ^ (N - 2).toNat % N * a ^ 2 ^ m) % N = 1 := by
        apply guard_of_modeq_pow N _ hN2
        rw [he1]
        have h2 : (a ^ 2 ^ m) ^ (N - 1).toNat = (a ^ (N - 1).toNat) ^ 2 ^ m := by
          rw [← pow_mul, ← pow_mul, mul_comm]
        rw [h2]
        have h3 := hfe.pow (2 ^ m)
        rwa [one_pow] at h3
      rw [hbit, Bool.cond_true,
        mult_in_k_N_maps (a ^ 2 ^ m) N n naux r hN2 hr0 hrN hw haux hguard]
      have hr10 : 0 ≤ (a ^ 2 ^ m * r) % N := Int.emod_nonneg _ (by omega)
      have hr1N : (a ^ 2 ^ m * r) % N < N := Int.emod_lt_of_pos _ (by omega)
      rw [ih _ hr10 hr1N]
      have hm : x % 2 ^ (m + 1) = x % 2 ^ m + 2 ^ m := by
        rw [nat_mod_two_pow_succ, hbit]
        simp
      rw [hm]
      have s1 : (a ^ 2 ^ m * r) % N * a ^ (x % 2 ^ m) ≡
          r * a ^ (x % 2 ^ m + 2 ^ m) [ZMOD N] := by
        have h4 := (emod_modeq_self (a ^ 2 ^ m * r) N).mul_right (a ^ (x % 2 ^ m))
        calc (a ^ 2 ^ m * r) % N * a ^ (x % 2 ^ m)
            ≡ a ^ 2 ^ m * r * a ^ (x % 2 ^ m) [ZMOD N] := h4
          _ = r * a ^ (x % 2 ^ m + 2 ^ m) := by rw [pow_add]; ring
      have s2 : ((a ^ 2 ^ m * r) % N * a ^ (x % 2 ^ m)) % N =
          (r * a ^ (x % 2 ^ m + 2 ^ m)) % N := s1
      rw [s2]
    · have hb' : x.testBit m = false := by simpa using hbit
      rw [hb', Bool.cond_false, ih r hr0 hrN]
      have hm : x % 2 ^ (m + 1) = x % 2 ^ m := by
        rw [nat_mod_two_pow_succ, hb']
        simp
      rw [hm]

/-- C2 (amended).  With the result and support registers wide enough to hold
values below N, and under the condition the source's inverse check actually
enforces — a^(N-1) ≡ 1 (mod N), which holds in particular for prime N and
gcd(a, N) = 1 — `Exp_a_N` first sets the result register from 0 to the basis
state 1 by flipping its least-significant wire and then maps exponent basis
state x (x < 2^nx) to a^x mod N in the result register, with the support
register and both auxiliary wires returned to 0. -/
theorem Exp_a_N_correct (a N : ℤ) (n naux nx : ℕ) (x : ℕ)
    (hN2 : 2 ≤ N) (ha0 : 0 ≤ a) (hw : N ≤ 2 ^ n) (haux : 2 ≤ naux)
    (hferm : a ^ (N - 1).toNat % N = 1) (hx : x < 2 ^ nx) :
    Exp_a_N a N n n naux nx x (0, 0, false) = (a ^ x % N, 0, false) := by
  have hflip : lsb_flip 0 = 1 := by
    simp [lsb_flip]
  unfold Exp_a_N
  simp only [hflip]
  rw [exp_loop_correct a N n naux x hN2 ha0 hw haux hferm nx 1 (by omega) (by omega)]
  rw [Nat.mod_eq_of_lt hx, one_mul]

/-- C8 (amended).  `sum_k(k, wires)` emits exactly one rotation per wire, the
wire of rank j from the top receiving angle k*pi/2^j; its adjoint consists of
the gates of `sum_k(-k, wires)` in reverse order (PennyLane's adjoint replays
the rotations backwards; since they act on distinct wires the two sequences
denote the same operator, but they are not the same gate sequence). -/
theorem sum_k_gates_spec (k : ℤ) (wires : List ℕ) :
    (sum_k_gates k wires).length = wires.length
    ∧ (∀ j, j < wires.length →
        (sum_k_gates k wires)[j]? = some (Gate.rz k j (wires.getD j 0)))
    ∧ adjoint_gates (sum_k_gates k wires) = (sum_k_gates (-k) wires).reverse := by
  refine ⟨by simp [sum_k_gates], fun j hj => ?_, ?_⟩
  · rw [sum_k_gates, List.getElem?_map, List.getElem?_range hj]
    rfl
  · rw [adjoint_gates, sum_k_gates, List.map_map]
    have h : (Gate.invert ∘ fun j => Gate.rz k j (wires.getD j 0)) =
        fun j => Gate.rz (-k) j (wires.getD j 0) := by
      funext j
      rfl
    rw [h]
    rfl

theorem sum_k_gates_adjoint_counterexample :
    adjoint_gates (sum_k_gates 1 [0, 1]) ≠ sum_k_gates (-1) [0, 1] := by decide

theorem sum_k_gates_spec_witness :
    (sum_k_gates 3 [5, 6]).length = 2
    ∧ (sum_k_gates 3 [5, 6])[1]? = some (Gate.rz 3 1 6)
    ∧ adjoint_gates (sum_k_gates 3 [5, 6]) = (sum_k_gates (-3) [5, 6]).reverse :=
  ⟨(sum_k_gates_spec 3 [5, 6]).1,
   (sum_k_gates_spec 3 [5, 6]).2.1 1 (by decide),
   (sum_k_gates_spec 3 [5, 6]).2.2⟩

/-- Gate sequence of `add_in_k_N(k, N, wires_a, wires_aux,
is_in_standard_basis)`, transcribed block by block from the source. -/
def add_in_k_N_gates (k N : ℤ) (wa waux : List ℕ) (std : Bool) : List Gate :=
  (cond std [Gate.qft wa] [])
  ++ sum_k_gates k wa
  ++ adjoint_gates (sum_k_gates N wa)
  ++ [Gate.qftInv wa, Gate.cnot (wa.getD 0 0) (waux.getD 0 0), Gate.qft wa]
  ++ ctrl_gates [waux.getD 0 0] (sum_k_gates N wa)
  ++ adjoint_gates (sum_k_gates k wa)
  ++ [Gate.qftInv wa, Gate.x (wa.getD 0 0), Gate.cnot (wa.getD 0 0) (waux.getD 0 0),
      Gate.x (wa.getD 0 0), Gate.qft wa]
  ++ sum_k_gates k wa
  ++ (cond std [Gate.qftInv wa] [])

/-- Gate sequence of `mult_out_k_N(k, N, wires_a, wires_b, wires_aux)`: if
fewer than two auxiliary wires are supplied the function prints and returns
with no gate emitted; otherwise a QFT on wires_aux[0] :: wires_b, one
controlled `add_in_k_N` per wire of wires_a with constant
(k * 2^(len-1-i)) % N, and the adjoint QFT. -/
def mult_out_k_N_gates (k N : ℤ) (wa wb waux : List ℕ) : List Gate :=
  if waux.length < 2 then []
  else
    [Gate.qft (waux.getD 0 0 :: wb)]
    ++ (List.map (fun i => ctrl_gates [wa.getD i 0]
          (add_in_k_N_gates (k * 2 ^ (wa.length - 1 - i) % N) N
            (waux.getD 0 0 :: wb) [waux.getD 1 0] false))
        (List.range wa.length)).flatten
    ++ [Gate.qftInv (waux.getD 0 0 :: wb)]

/-- Bitwise swap of two registers, wire by wire, as in step 2 of
`mult_in_k_N`. -/
def swap_gates (wa ws : List ℕ) : List Gate :=
  List.map (fun i => Gate.swap (wa.getD i 0) (ws.getD i 0)) (List.range wa.length)

/-- Gate sequence of `mult_in_k_N(k, N, wires_a, wires_support, wires_aux)`:
the guard clauses of the source return with no gate emitted; otherwise
`mult_out_k_N k`, the bitwise swap, and a forward `mult_out_k_N` with
constant N - pow(k, N-2, N). -/
def mult_in_k_N_gates (k N : ℤ) (wa ws waux : List ℕ) : List Gate :=
  if waux.length < 2 ∨ wa.length ≠ ws.length then []
  else if (k ^ (N - 2).toNat % N * k) % N ≠ 1 then []
  else
    mult_out_k_N_gates k N wa ws waux
    ++ swap_gates wa ws
    ++ mult_out_k_N_gates (N - k ^ (N - 2).toNat % N) N wa ws waux

/-- C5 (amended).  When `pow(k, N-2, N) * k % N != 1` — in particular whenever
k has no inverse modulo N — `mult_in_k_N` prints a message and returns
normally without emitting any gate: the caller receives an identity circuit
and no error value is produced. -/
theorem mult_in_k_N_no_inverse_no_gates (k N : ℤ)
    (h : (k ^ (N - 2).toNat % N * k) % N ≠ 1) :
    (∀ wa ws waux : List ℕ, mult_in_k_N_gates k N wa ws waux = [])
    ∧ (∀ na nsup naux : ℕ, ∀ s : ℤ × ℤ × Bool, mult_in_k_N k N na nsup naux s = s) := by
  constructor
  · intro wa ws waux
    rw [mult_in_k_N_gates]
    by_cases hg : waux.length < 2 ∨ wa.length ≠ ws.length
    · rw [if_pos hg]
    · rw [if_neg hg, if_pos h]
  · intro na nsup naux s
    rw [mult_in_k_N]
    by_cases hg : naux < 2 ∨ na ≠ nsup
    · rw [if_pos hg]
    · rw [if_neg hg, if_pos h]

theorem mult_in_k_N_error_counterexample :
    Int.gcd 2 4 ≠ 1
    ∧ mult_in_k_N_gates 2 4 [0] [1] [2, 3] = []
    ∧ mult_in_k_N 2 4 1 1 2 (1, 0, false) = (1, 0, false) := by decide

theorem mult_in_k_N_no_inverse_witness :
    mult_in_k_N_gates 2 4 [0, 1] [2, 3] [4, 5] = []
    ∧ mult_in_k_N 2 4 2 2 2 (3, 0, false) = (3, 0, false) :=
  ⟨(mult_in_k_N_no_inverse_no_gates 2 4 (by decide)).1 [0, 1] [2, 3] [4, 5],
   (mult_in_k_N_no_inverse_no_gates 2 4 (by decide)).2 2 2 2 (3, 0, false)⟩

/-- C6 (amended).  When the inverse check passes, `mult_in_k_N` is exactly
three steps: (1) `mult_out_k_N(k, N, ...)`, (2) a bitwise swap of the input
and support registers, (3) a second, forward application of `mult_out_k_N`
with constant N - k⁻¹ mod N where k⁻¹ = k^(N-2) mod N (the source does not
take the adjoint of the out-of-place multiplier; re-adding N - k⁻¹ times the
register acts as subtracting k⁻¹ times, which uncomputes the support). -/
theorem mult_in_k_N_three_steps (k N : ℤ) (wa ws waux : List ℕ)
    (h2 : 2 ≤ waux.length) (hlen : wa.length = ws.length)
    (hinv : (k ^ (N - 2).toNat % N * k) % N = 1) :
    mult_in_k_N_gates k N wa ws waux =
      mult_out_k_N_gates k N wa ws waux
      ++ swap_gates wa ws
      ++ mult_out_k_N_gates (N - k ^ (N - 2).toNat % N) N wa ws waux := by
  have hg : ¬ (waux.length < 2 ∨ wa.length ≠ ws.length) := by
    push_neg
    exact ⟨by omega, hlen⟩
  rw [mult_in_k_N_gates, if_neg hg, if_neg (not_ne_iff.mpr hinv)]

theorem mult_in_k_N_adjoint_step_counterexample :
    mult_in_k_N_gates 1 2 [0] [1] [2, 3] ≠
      mult_out_k_N_gates 1 2 [0] [1] [2, 3]
      ++ swap_gates [0] [1]
      ++ adjoint_gates (mult_out_k_N_gates (2 - 1 ^ ((2 : ℤ) - 2).toNat % 2) 2 [0] [1] [2, 3]) := by
  decide

theorem mult_in_k_N_three_steps_witness :
    mult_in_k_N_gates 1 2 [0] [1] [2, 3] =
      mult_out_k_N_gates 1 2 [0] [1] [2, 3]
      ++ swap_gates [0] [1]
      ++ mult_out_k_N_gates (2 - 1 ^ ((2 : ℤ) - 2).toNat % 2) 2 [0] [1] [2, 3] :=
  mult_in_k_N_three_steps 1 2 [0] [1] [2, 3] (by decide) (by decide) (by decide)

/-- C10.  With adequate wires (at least two auxiliary wires, equal register
widths, a nonempty input register), `mult_in_k_N` emits gates exactly when
`pow(k, N-2, N) * k % N == 1`; for N ≥ 2 that condition is k^(N-1) ≡ 1
(mod N).  On rejection — by this check, by too few auxiliary wires, or by
mismatched register widths — the function returns with no gate emitted, an
identity circuit. -/
theorem mult_in_k_N_emission (k N : ℤ) (hN2 : 2 ≤ N) :
    (∀ wa ws waux : List ℕ, 2 ≤ waux.length → wa.length = ws.length → wa ≠ [] →
      (mult_in_k_N_gates k N wa ws waux ≠ [] ↔
        (k ^ (N - 2).toNat % N * k) % N = 1))
    ∧ ((k ^ (N - 2).toNat % N * k) % N = 1 ↔ k ^ (N - 1).toNat % N = 1)
    ∧ (∀ wa ws waux : List ℕ, waux.length < 2 ∨ wa.length ≠ ws.length →
        mult_in_k_N_gates k N wa ws waux = []) := by
  refine ⟨fun wa ws waux haux hlen hwa => ⟨fun hne => ?_, fun hg => ?_⟩, ?_, ?_⟩
  · by_contra hg
    apply hne
    rw [mult_in_k_N_gates, if_neg (by push_neg; exact ⟨by omega, hlen⟩), if_pos hg]
  · rw [mult_in_k_N_gates, if_neg (by push_neg; exact ⟨by omega, hlen⟩),
      if_neg (not_ne_iff.mpr hg)]
    rw [mult_out_k_N_gates, if_neg (by omega)]
    simp
  · have he1 : (N - 2).toNat + 1 = (N - 1).toNat := by omega
    have hstep : (k ^ (N - 2).toNat % N * k) % N = k ^ ((N - 2).toNat + 1) % N := by
      conv_rhs => rw [pow_succ]
      exact (emod_modeq_self (k ^ (N - 2).toNat) N).mul_right k
    rw [hstep, he1]
  · intro wa ws waux h
    rw [mult_in_k_N_gates, if_pos h]

theorem mult_in_k_N_emission_witness :
    Int.gcd 3 8 = 1
    ∧ ¬ (mult_in_k_N_gates 3 8 [0, 1, 2] [3, 4, 5] [6, 7] ≠ []) := by
  refine ⟨by decide, fun hne => ?_⟩
  have h := ((mult_in_k_N_emission 3 8 (by decide)).1 [0, 1, 2] [3, 4, 5] [6, 7]
    (by decide) (by decide) (by decide)).mp hne
  exact absurd h (by decide)

/-- Extended target register of `add_in_N`: `new_wires_b = aux1 + wires_b`,
the support ancilla list prepended to the target register. -/
def new_wires_b (aux1 wires_b : List ℕ) : List ℕ := aux1 ++ wires_b

/-- Value of a register under a boolean wire assignment, most-significant
wire first. -/
def regValue (f : ℕ → Bool) (wires : List ℕ) : ℕ :=
  wires.foldl (fun acc w => 2 * acc + (if f w then 1 else 0)) 0

/-- Weights of the controlled constant additions of `add_in_N`: wire i of
wires_a (i = 0 the most significant) contributes 2^(na-1-i) % N. -/
def add_in_N_weights (N : ℤ) (na : ℕ) : List ℤ :=
  (List.range na).map (fun i => (2 : ℤ) ^ (na - 1 - i) % N)

/-- Gate sequence of `add_in_N(N, wires_a, wires_b, aux1, aux2)`: QFT on the
extended register aux1 ++ wires_b, one `add_in_k_N` with constant
2^(len-1-i) % N controlled on wire i of wires_a for each i, adjoint QFT. -/
def add_in_N_gates (N : ℤ) (wa wb aux1 aux2 : List ℕ) : List Gate :=
  [Gate.qft (new_wires_b aux1 wb)]
  ++ (List.map (fun i => ctrl_gates [wa.getD i 0]
        (add_in_k_N_gates ((2 : ℤ) ^ (wa.length - 1 - i) % N) N
          (new_wires_b aux1 wb) aux2 false))
      (List.range wa.length)).flatten
  ++ [Gate.qftInv (new_wires_b aux1 wb)]

theorem regValue_foldl (f : ℕ → Bool) (l : List ℕ) (acc : ℕ) :
    l.foldl (fun a w => 2 * a + (if f w then 1 else 0)) acc =
      acc * 2 ^ l.length + l.foldl (fun a w => 2 * a + (if f w then 1 else 0)) 0 := by
  induction l generalizing acc with
  | nil => simp
  | cons hd tl ih =>
    simp only [List.foldl_cons, List.length_cons]
    rw [ih (2 * acc + (if f hd then 1 else 0)), ih (2 * 0 + (if f hd then 1 else 0))]
    ring

/-- C7 (amended).  In `add_in_N` the support ancilla wire is prefixed to the
target register as an extra HIGH-order (most significant) wire of the
extended register — under the most-significant-first convention it
contributes 2^(len wires_b), not 1, to the represented value — and for each
wire i of the other operand register (i = 0 the most significant, weight
2^(na-1-i) % N) one constant modular addition of that weight is emitted,
controlled on wire i. -/
theorem add_in_N_structure (N : ℤ) (x : ℕ) (wa wb aux2 : List ℕ) (f : ℕ → Bool)
    (i : ℕ) (hi : i < wa.length) :
    new_wires_b [x] wb = x :: wb
    ∧ regValue f (new_wires_b [x] wb) =
        (if f x then 2 ^ wb.length else 0) + regValue f wb
    ∧ (add_in_N_weights N wa.length).getD i 0 = (2 : ℤ) ^ (wa.length - 1 - i) % N
    ∧ (ctrl_gates [wa.getD i 0]
        (add_in_k_N_gates ((2 : ℤ) ^ (wa.length - 1 - i) % N) N
          (new_wires_b [x] wb) aux2 false)).Sublist (add_in_N_gates N wa wb [x] aux2) := by
  refine ⟨rfl, ?_, ?_, ?_⟩
  · show regValue f (x :: wb) = _
    rw [regValue, List.foldl_cons, regValue_foldl]
    by_cases hf : f x
    · simp [hf, regValue]
    · simp [hf, regValue]
  · rw [add_in_N_weights, List.getD_eq_getElem?_getD, List.getElem?_map,
      List.getElem?_range hi]
    rfl
  · have hmem : ctrl_gates [wa.getD i 0]
        (add_in_k_N_gates ((2 : ℤ) ^ (wa.length - 1 - i) % N) N
          (new_wires_b [x] wb) aux2 false) ∈
        List.map (fun i => ctrl_gates [wa.getD i 0]
          (add_in_k_N_gates ((2 : ℤ) ^ (wa.length - 1 - i) % N) N
            (new_wires_b [x] wb) aux2 false)) (List.range wa.length) :=
      List.mem_map.mpr ⟨i, List.mem_range.mpr hi, rfl⟩
    have h1 := List.sublist_flatten_of_mem hmem
    rw [add_in_N_gates]
    exact h1.trans ((List.sublist_append_right _ _).trans
      (List.sublist_append_left _ _))

theorem add_in_N_ancilla_counterexample :
    new_wires_b [6] [3, 4, 5] ≠ [3, 4, 5] ++ [6]
    ∧ regValue (fun w => w == 6) (new_wires_b [6] [3, 4, 5]) = 2 ^ 3 := by decide

theorem add_in_N_structure_witness :
    new_wires_b [6] [3, 4, 5] = 6 :: [3, 4, 5]
    ∧ regValue (fun w => w == 6) (new_wires_b [6] [3, 4, 5]) =
        (if (6 : ℕ) == 6 then 2 ^ ([3, 4, 5] : List ℕ).length else 0) +
          regValue (fun w => w == 6) [3, 4, 5]
    ∧ (add_in_N_weights 5 ([0, 1, 2] : List ℕ).length).getD 1 0 =
        (2 : ℤ) ^ (([0, 1, 2] : List ℕ).length - 1 - 1) % 5
    ∧ (ctrl_gates [([0, 1, 2] : List ℕ).getD 1 0]
        (add_in_k_N_gates ((2 : ℤ) ^ (([0, 1, 2] : List ℕ).length - 1 - 1) % 5) 5
          (new_wires_b [6] [3, 4, 5]) [7] false)).Sublist
        (add_in_N_gates 5 [0, 1, 2] [3, 4, 5] [6] [7]) :=
  add_in_N_structure 5 6 [0, 1, 2] [3, 4, 5] [7] (fun w => w == 6) 1 (by decide)

/-- Wires used by a gate, controls included. -/
def gate_wires : Gate → List ℕ
  | Gate.rz _ _ w => [w]
  | Gate.qft ws => ws
  | Gate.qftInv ws => ws
  | Gate.cnot c t => [c, t]
  | Gate.x w => [w]
  | Gate.swap a b => [a, b]
  | Gate.ctrl cs g => cs ++ gate_wires g

/-- Wires used anywhere in a gate sequence. -/
def circuit_wires (gs : List Gate) : List ℕ := (gs.map gate_wires).flatten

/-- Construction-time errors of the circuit algebra. -/
inductive CircuitError : Type
  | wireConflict
deriving DecidableEq

/-- Modelled from the spec: the control-wrapping operation of the Circuit
algebra.  The source delegates control-wrapping to the external library
(`qml.ctrl`), whose implementation is not part of this repository; per the
spec, the controls must be disjoint from every wire used in the circuit,
wrapping fails with a WireConflict error when they are not, and otherwise
every gate is wrapped with the same controls, relative order preserved. -/
def controlled_wrap (gs : List Gate) (controls : List ℕ) :
    Except CircuitError (List Gate) :=
  if controls.any (fun w => decide (w ∈ circuit_wires gs)) then
    Except.error CircuitError.wireConflict
  else
    Except.ok (ctrl_gates controls gs)

/-- C9.  Wrapping a circuit with a control wire set that is not disjoint from
the wires the circuit uses fails at construction time with a WireConflict
error. -/
theorem controlled_wrap_conflict (gs : List Gate) (controls : List ℕ)
    (h : ∃ w, w ∈ controls ∧ w ∈ circuit_wires gs) :
    controlled_wrap gs controls = Except.error CircuitError.wireConflict := by
  rw [controlled_wrap, if_pos]
  obtain ⟨w, hw1, hw2⟩ := h
  rw [List.any_eq_true]
  exact ⟨w, hw1, by simpa using hw2⟩

theorem controlled_wrap_conflict_witness :
    controlled_wrap [Gate.x 0] [0] = Except.error CircuitError.wireConflict :=
  controlled_wrap_conflict [Gate.x 0] [0] ⟨0, by decide, by decide⟩

theorem add_in_k_N_correct_witness :
    add_in_k_N 3 5 4 4 false = (2, false) :=
  (add_in_k_N_correct 4 5 3 4 (by decide) (by decide) (by decide) (by decide)
    (by decide) (by decide) (by decide)).trans (by decide)

theorem add_in_N_roundtrip_witness :
    add_in_N 5 3 4 1 (3, false) = (4, false)
    ∧ adj_add_in_N 5 3 4 1 (4, false) = (3, false) := by
  have h := add_in_N_roundtrip 5 3 4 1 3 (by decide) (by decide) (by decide)
    (by decide) (by decide) (by decide) (by decide)
  exact ⟨h.1.trans (by decide), h.2⟩

theorem Exp_a_N_claim_counterexample :
    Exp_a_N 2 4 2 2 2 1 1 (0, 0, false) ≠ ((2 : ℤ) ^ 1 % 4, 0, false) := by decide

theorem Exp_a_N_correct_witness :
    Exp_a_N 2 7 3 3 2 3 3 (0, 0, false) = (1, 0, false) :=
  (Exp_a_N_correct 2 7 3 2 3 3 (by decide) (by decide) (by decide) (by decide)
    (by decide) (by decide)).trans (by decide)

theorem mult_in_k_N_gcd_counterexample :
    Int.gcd 3 8 = 1
    ∧ mult_in_k_N 3 8 3 3 2 (1, 0, false) ≠ ((3 * 1) % 8, 0, false) := by decide

theorem mult_in_k_N_correct_witness :
    mult_in_k_N 3 5 3 3 2 (1, 0, false) = (3, 0, false)
    ∧ mult_in_k_N 2 5 3 3 2 (3, 0, false) = (1, 0, false) := by
  have h := mult_in_k_N_correct 3 5 3 2 1 (by decide) (by decide) (by decide)
    (by decide) (by decide) (by decide) (by decide) (by decide)
  exact ⟨h.1.trans (by decide), h.2⟩
